import Mathlib

/-!
# Verification of the `comment-remover` CLI core (src/src/main.rs)

This file shallowly embeds the comment-detection and removal engine of the
repository: the rule model (`SyntaxRule`, `MultiLineRule`, `LanguageRules`,
`SyntaxRules`), the language detector (`detect_file_type`), the pattern
compiler (`get_comment_patterns`), the confirmation policy
(`should_remove_comment`) and the scanner/remover (`remove_comments`).

Strings are modelled as `List Char`; byte offsets of the Rust code become
character offsets (the contents involved are ASCII, where the two coincide).
The two regexes built by `get_comment_patterns`,
`(?m)^\s*TOK\s*.*$` for a single-line rule and `START\s*[\s\S]*?\s*END`
for a multi-line rule (with the tokens escaped, i.e. treated literally),
are embedded as executable matchers that follow the leftmost-first
semantics of the `regex` crate: a find scans candidate start positions
left to right; within one attempt a greedy `\s*` prefers consuming more
whitespace and backtracks downwards, the lazy `[\s\S]*?` prefers consuming
less and extends upwards, `.` matches any character except `'\n'`, `^` in
multiline mode matches at the start of the haystack or right after a
`'\n'`, and `$` matches at the end or right before a `'\n'`.  `\s` is
modelled by the ASCII whitespace characters (the Unicode white-space
extension of the `regex` crate is not exercised by any claim).

The interactive loop of `main` is modelled with stdin as a list of input
lines and the `while let Some(mat) = pattern.find_at(..)` loop with a fuel
parameter (`none` = the Rust loop has not finished within `fuel`
iterations; the Rust code genuinely diverges for patterns with empty
tokens, so no total function can exist).
-/

namespace CommentRemover

/-! ## Rule model (structs `SyntaxRule`, `MultiLineRule`, `LanguageRules`, `SyntaxRules`) -/

structure SyntaxRule where
  pattern : String
  description : String
deriving DecidableEq

structure MultiLineRule where
  start : String
  «end» : String
  description : String
deriving DecidableEq

structure LanguageRules where
  name : String
  extensions : List String
  single_line : List SyntaxRule
  multi_line : List MultiLineRule
deriving DecidableEq

/-- The `#[serde(flatten)] languages: HashMap<String, LanguageRules>` map,
modelled as an association list (the iteration order of the Rust `HashMap`
is unspecified; the list order stands for one such order). -/
structure SyntaxRules where
  languages : List (String × LanguageRules)
deriving DecidableEq

/-! ## Semantics of the compiled regex patterns -/

/-- `\s` of the `regex` crate, restricted to the ASCII white-space characters. -/
def isWs (c : Char) : Bool :=
  c = ' ' || c = '\t' || c = '\n' || c = '\r' || c = '\x0b' || c = '\x0c'

/-- Length of the maximal white-space run at the head of `l`
(what a greedy `\s*` consumes before any backtracking). -/
def wsRun : List Char → Nat
  | [] => 0
  | c :: cs => if isWs c then wsRun cs + 1 else 0

/-- Length of the maximal `'\n'`-free run at the head of `l`
(what a greedy `.*` consumes). -/
def nonNlRun : List Char → Nat
  | [] => 0
  | c :: cs => if c = '\n' then 0 else nonNlRun cs + 1

/-- `^` in multiline mode: position `p` is the start of the haystack or
directly preceded by a `'\n'`. -/
def lineStart (s : List Char) (p : Nat) : Bool :=
  decide (p = 0 ∨ s[p - 1]? = some '\n')

/-- Backtracking search of the leading greedy `\s*` of a single-line
pattern: the largest `k ≤ j` such that the literal token matches at
offset `k` of `rest` (the greedy star prefers the longest whitespace
consumption that lets the rest of the pattern match). -/
def largestK (tok rest : List Char) : Nat → Option Nat
  | 0 => if tok.isPrefixOf rest then some 0 else none
  | k + 1 =>
    if tok.isPrefixOf (rest.drop (k + 1)) then some (k + 1)
    else largestK tok rest k

/-- Match attempt of the compiled single-line pattern `(?m)^\s*TOK\s*.*$`
at position `p` of `s`; returns the end offset of the match.  After the
token, the greedy `\s*` and `.*` always extend maximally, and `$` then
necessarily holds, so no further backtracking arises. -/
def matchSingleAt (tok s : List Char) (p : Nat) : Option Nat :=
  if lineStart s p then
    match largestK tok (s.drop p) (wsRun (s.drop p)) with
    | none => none
    | some k =>
      some (p + k + tok.length + wsRun (s.drop (p + k + tok.length)) +
        nonNlRun (s.drop (p + k + tok.length + wsRun (s.drop (p + k + tok.length)))))
  else none

/-- Innermost backtracking level of the multi-line pattern
`START\s*[\s\S]*?\s*END`: the greedy trailing `\s*` tries to consume
`c, c-1, …, 0` whitespace characters before the literal end token
(the initial `c` is the full whitespace run, so every tried amount
consists of whitespace). Returns the end offset of the whole match. -/
def tryC (en s : List Char) (pos : Nat) : Nat → Option Nat
  | 0 => if en.isPrefixOf (s.drop pos) then some (pos + en.length) else none
  | c + 1 =>
    if en.isPrefixOf (s.drop (pos + (c + 1))) then some (pos + (c + 1) + en.length)
    else tryC en s pos c

/-- Middle backtracking level: the lazy `[\s\S]*?` consumes `0, 1, 2, …`
characters (any characters, including newlines), preferring fewer. -/
def tryB (en s : List Char) (pos : Nat) : Nat → Option Nat
  | 0 => tryC en s pos (wsRun (s.drop pos))
  | f + 1 =>
    match tryC en s pos (wsRun (s.drop pos)) with
    | some e => some e
    | none => tryB en s (pos + 1) f

/-- Outermost backtracking level: the greedy leading `\s*` after the start
token consumes `a, a-1, …, 0` whitespace characters, preferring more. -/
def tryA (en s : List Char) (q : Nat) : Nat → Option Nat
  | 0 => tryB en s q (s.length - q)
  | a + 1 =>
    match tryB en s (q + (a + 1)) (s.length - (q + (a + 1))) with
    | some e => some e
    | none => tryA en s q a

/-- Match attempt of the compiled multi-line pattern `START\s*[\s\S]*?\s*END`
at position `p` of `s`; returns the end offset of the match. -/
def matchMultiAt (st en s : List Char) (p : Nat) : Option Nat :=
  if st.isPrefixOf (s.drop p) then
    tryA en s (p + st.length) (wsRun (s.drop (p + st.length)))
  else none

/-- A compiled pattern (`Regex` in the Rust code): either variant keeps the
literal token(s) of the rule it was compiled from; `regex::escape`
guarantees the tokens are matched literally. -/
inductive Pattern where
  | singleLine : List Char → Pattern
  | multiLine : List Char → List Char → Pattern
deriving DecidableEq

def matchAt : Pattern → List Char → Nat → Option Nat
  | .singleLine tok, s, p => matchSingleAt tok s p
  | .multiLine st en, s, p => matchMultiAt st en s p

/-- Scan candidate start positions `p, p+1, …` (`fuel` many) left to right
and return the first successful match attempt, as `(start, end)`. -/
def scanFrom (pat : Pattern) (s : List Char) (p : Nat) : Nat → Option (Nat × Nat)
  | 0 => none
  | f + 1 =>
    match matchAt pat s p with
    | some e => some (p, e)
    | none => scanFrom pat s (p + 1) f

/-- `Regex::find_at(haystack, off)`: the leftmost match whose start is
`≥ off` (candidate starts `off, …, s.length`). -/
def find_at (pat : Pattern) (s : List Char) (off : Nat) : Option (Nat × Nat) :=
  scanFrom pat s off (s.length + 1 - off)

/-! ## Pattern compiler (`get_comment_patterns`) -/

/-- `get_comment_patterns`: one pattern per rule, single-line rules first,
each in declaration order.  The verbose diagnostics of the Rust function
only print and are not modelled. -/
def get_comment_patterns (language : LanguageRules) : List Pattern :=
  language.single_line.map (fun r => Pattern.singleLine r.pattern.data)
    ++ language.multi_line.map (fun r => Pattern.multiLine r.start.data r.«end».data)

/-! ## Confirmation policy (`should_remove_comment`) -/

/-- Model of `str::trim` (ASCII whitespace, as in the `\s` model). -/
def trimAscii (cs : List Char) : List Char :=
  ((cs.dropWhile isWs).reverse.dropWhile isWs).reverse

/-- Model of `str::to_lowercase` restricted to ASCII letters (the inputs
compared against are ASCII). -/
def toLowerChar (c : Char) : Char :=
  if 'A' ≤ c ∧ c ≤ 'Z' then Char.ofNat (c.toNat + 32) else c

/-- `should_remove_comment`: with `auto` set it returns `true` without
touching stdin; otherwise it reads one line (EOF reads as the empty
string) and accepts exactly the trimmed, lower-cased answer `"y"`.
Returns the decision together with the remaining stdin (each stdin line
is a `List Char`). -/
def should_remove_comment (_comment : List Char) (auto : Bool) (stdin : List (List Char)) :
    Bool × List (List Char) :=
  if auto then (true, stdin)
  else
    match stdin with
    | [] => (false, [])
    | line :: rest => (decide ((trimAscii line).map toLowerChar = ['y']), rest)

/-! ## Scanner/remover (`remove_comments`) -/

/-- The mutable state of the `remove_comments` loops: the working copy
`result`, the search cursor `offset` of the current pattern's pass, the
two counters, and the remaining stdin lines. -/
structure ScanState where
  result : List Char
  offset : Nat
  found : Nat
  removed : Nat
  stdin : List (List Char)
deriving DecidableEq

/-- The `while let Some(mat) = pattern.find_at(&result.clone(), offset)`
loop for one pattern.  On acceptance the span is deleted
(`replace_range(start..end, "")`) and the cursor returns to the match
start; on rejection the cursor jumps to the match end.  `fuel` bounds the
number of iterations; `none` means the Rust loop has not terminated
within `fuel` iterations. -/
def runPatternLoop (pat : Pattern) (auto : Bool) : Nat → ScanState → Option ScanState
  | 0, _ => none
  | fuel + 1, st =>
    match find_at pat st.result st.offset with
    | none => some st
    | some (s, e) =>
      let comment := (st.result.drop s).take (e - s)
      let d := should_remove_comment comment auto st.stdin
      if d.1 then
        runPatternLoop pat auto fuel
          ⟨st.result.take s ++ st.result.drop e, s, st.found + 1, st.removed + 1, d.2⟩
      else
        runPatternLoop pat auto fuel ⟨st.result, e, st.found + 1, st.removed, d.2⟩

/-- The `for pattern in patterns` loop: each pattern's pass starts with a
fresh cursor `offset = 0`. -/
def runPatterns (auto : Bool) (fuel : Nat) : List Pattern → ScanState → Option ScanState
  | [], st => some st
  | p :: ps, st =>
    match runPatternLoop p auto fuel ⟨st.result, 0, st.found, st.removed, st.stdin⟩ with
    | none => none
    | some st' => runPatterns auto fuel ps st'

/-- `remove_comments(content, patterns, auto, verbose)`, returning
`(result, comments_found, comments_removed)`.  The verbose previews only
print and are not modelled; stdin is threaded for interactive mode. -/
def remove_comments (content : List Char) (patterns : List Pattern) (auto : Bool)
    (stdin : List (List Char)) (fuel : Nat) : Option (List Char × Nat × Nat) :=
  match runPatterns auto fuel patterns ⟨content, 0, 0, 0, stdin⟩ with
  | none => none
  | some st => some (st.result, st.found, st.removed)

/-! ## Language detector (`detect_file_type`) and the `Remove` branch of `main` -/

inductive Error where
  | UnsupportedFileType : String → Error
  | SyntaxRulesError : String → Error
deriving DecidableEq

/-- Splits a character list at `'/'` separators (always non-empty). -/
def splitOnSlash : List Char → List (List Char)
  | [] => [[]]
  | c :: cs =>
    match splitOnSlash cs with
    | [] => [[]]
    | g :: gs => if c = '/' then [] :: g :: gs else (c :: g) :: gs

/-- Model of `std::path::Path::file_name` for Unix-style paths: the last
normal component (`""` and `"."` components are skipped; a path ending in
`".."` has no file name). -/
def fileName (path : String) : Option (List Char) :=
  match ((splitOnSlash path.data).filter
      (fun comp => comp ≠ [] && comp ≠ ['.'])).getLast? with
  | none => none
  | some comp => if comp = ['.', '.'] then none else some comp

/-- Index of the last `'.'` in `cs`, if any. -/
def lastDotIdx : List Char → Option Nat
  | [] => none
  | c :: cs =>
    match lastDotIdx cs with
    | some i => some (i + 1)
    | none => if c = '.' then some 0 else none

/-- Model of `Path::extension`: the text after the last `'.'` of the file
name, unless there is no `'.'` or the only `'.'` is the leading character
(so `".gitignore"` has no extension, while `"foo."` has extension `""`). -/
def fileExtension (path : String) : Option (List Char) :=
  match fileName path with
  | none => none
  | some f =>
    match lastDotIdx f with
    | none => none
    | some i => if i = 0 then none else some (f.drop (i + 1))

/-- `detect_file_type`: extracts the extension (failing with
`UnsupportedFileType("No file extension found")` when there is none) and
returns the first language any of whose declared `extensions` equals it,
else fails with `UnsupportedFileType(extension)`. -/
def detect_file_type (file_path : String) (rules : SyntaxRules) :
    Except Error LanguageRules :=
  match fileExtension file_path with
  | none => .error (.UnsupportedFileType "No file extension found")
  | some ext =>
    match rules.languages.find? (fun kv => kv.2.extensions.any (fun x => x.data == ext)) with
    | some kv => .ok kv.2
    | none => .error (.UnsupportedFileType ⟨ext⟩)

/-- The `Commands::Remove` branch of `main` after the file has been read:
detect the language, compile its patterns, run the remover, and, when the
content changed, write the backup (unless `force`) and then the modified
file.  The returned list collects the `fs::write` calls as
`(path, contents)` pairs; the outer `Option` is the remover's fuel. -/
def mainRemove (file_path content : String) (rules : SyntaxRules) (auto force : Bool)
    (stdin : List (List Char)) (fuel : Nat) :
    Option (Except Error (String × Nat × Nat × List (String × String))) :=
  match detect_file_type file_path rules with
  | .error e => some (.error e)
  | .ok language =>
    let patterns := get_comment_patterns language
    match remove_comments content.data patterns auto stdin fuel with
    | none => none
    | some (new_content, comments_found, comments_removed) =>
      let new_string : String := ⟨new_content⟩
      let writes : List (String × String) :=
        if new_string ≠ content then
          (if force then [] else [(file_path ++ ".bak", content)])
            ++ [(file_path, new_string)]
        else []
      some (.ok (new_string, comments_found, comments_removed, writes))

/-- The file writes performed by a `mainRemove` outcome (none on error:
`main` returns at `detect_file_type(...)?` before touching the file). -/
def writesOf (r : Option (Except Error (String × Nat × Nat × List (String × String)))) :
    List (String × String) :=
  match r with
  | some (.ok (_, _, _, ws)) => ws
  | _ => []

/-- Pointwise whitespace segment: every position of `s` in `[a, b)` holds a
whitespace character. -/
def wsSeg (s : List Char) (a b : Nat) : Prop :=
  ∀ x, a ≤ x → x < b → ∃ c, s[x]? = some c ∧ isWs c = true

/-- Existence of a single-line match attempt at `p`: `p` is a line start
and the token occurs at `p` after a run of whitespace. -/
def HasMatch (tok s : List Char) (p : Nat) : Prop :=
  (p = 0 ∨ s[p - 1]? = some '\n') ∧
    ∃ k, wsSeg s p (p + k) ∧ tok.isPrefixOf (s.drop (p + k)) = true

/-- A pattern whose literal tokens are all non-empty (as holds for every
real comment rule); such a pattern can only match non-empty spans. -/
def patternNonempty : Pattern → Prop
  | .singleLine tok => tok ≠ []
  | .multiLine st en => st ≠ [] ∧ en ≠ []

/-! ## Basic facts about runs, prefixes and the matchers -/

theorem wsRun_le_length : ∀ l : List Char, wsRun l ≤ l.length := by
  intro l
  induction l with
  | nil => simp [wsRun]
  | cons c cs ih => simp only [wsRun, List.length_cons]; split <;> omega

theorem nonNlRun_le_length : ∀ l : List Char, nonNlRun l ≤ l.length := by
  intro l
  induction l with
  | nil => simp [nonNlRun]
  | cons c cs ih => simp only [nonNlRun, List.length_cons]; split <;> omega

theorem wsRun_ws : ∀ (l : List Char) (x : Nat), x < wsRun l →
    ∃ c, l[x]? = some c ∧ isWs c = true := by
  intro l
  induction l with
  | nil => intro x hx; simp [wsRun] at hx
  | cons c cs ih =>
    intro x hx
    simp only [wsRun] at hx
    by_cases hc : isWs c
    · rw [if_pos hc] at hx
      cases x with
      | zero => exact ⟨c, by simp, hc⟩
      | succ y =>
        obtain ⟨d, hd, hw⟩ := ih y (by omega)
        exact ⟨d, by simpa using hd, hw⟩
    · rw [if_neg hc] at hx
      omega

theorem le_wsRun_of_ws : ∀ (l : List Char) (k : Nat), k ≤ l.length →
    (∀ x, x < k → ∃ c, l[x]? = some c ∧ isWs c = true) → k ≤ wsRun l := by
  intro l
  induction l with
  | nil =>
    intro k hk _
    simp only [wsRun]
    simp at hk
    omega
  | cons c cs ih =>
    intro k hk h
    cases k with
    | zero => omega
    | succ k2 =>
      obtain ⟨d, hd, hw⟩ := h 0 (by omega)
      have hcd : c = d := by simpa using hd
      simp only [wsRun, if_pos (hcd ▸ hw)]
      have := ih k2 (by simpa using hk) (fun x hx => by simpa using h (x + 1) (by omega))
      omega

theorem nonNlRun_spec : ∀ l : List Char,
    l[nonNlRun l]? = some '\n' ∨ nonNlRun l = l.length := by
  intro l
  induction l with
  | nil => right; rfl
  | cons c cs ih =>
    by_cases hc : c = '\n'
    · left; simp [nonNlRun, hc]
    · simp only [nonNlRun, if_neg hc]
      rcases ih with h | h
      · left; simpa using h
      · right; simp [h]

theorem isPrefixOf_iff_getElem (tok l : List Char) :
    tok.isPrefixOf l = true ↔
      tok.length ≤ l.length ∧ ∀ i, i < tok.length → l[i]? = tok[i]? := by
  rw [List.isPrefixOf_iff_prefix]
  constructor
  · intro h
    refine ⟨h.length_le, fun i hi => ?_⟩
    rw [List.prefix_iff_eq_take] at h
    conv_rhs => rw [h]
    rw [List.getElem?_take, if_pos hi]
  · rintro ⟨hlen, h⟩
    rw [List.prefix_iff_eq_take]
    apply List.ext_getElem?
    intro n
    rw [List.getElem?_take]
    split
    · exact (h n (by assumption)).symm
    · exact List.getElem?_eq_none (by omega)

theorem isPrefixOf_drop_iff (tok s : List Char) (m : Nat) (hne : tok ≠ []) :
    tok.isPrefixOf (s.drop m) = true ↔
      (m + tok.length ≤ s.length ∧ ∀ i, i < tok.length → s[m + i]? = tok[i]?) := by
  rw [isPrefixOf_iff_getElem]
  have hlen : (s.drop m).length = s.length - m := List.length_drop m s
  have htok : 0 < tok.length := List.length_pos.mpr hne
  constructor
  · rintro ⟨h1, h2⟩
    refine ⟨by omega, fun i hi => ?_⟩
    have := h2 i hi
    rwa [List.getElem?_drop] at this
  · rintro ⟨h1, h2⟩
    refine ⟨by omega, fun i hi => ?_⟩
    rw [List.getElem?_drop]
    exact h2 i hi

theorem largestK_some (tok rest : List Char) :
    ∀ j k, largestK tok rest j = some k →
      k ≤ j ∧ tok.isPrefixOf (rest.drop k) = true := by
  intro j
  induction j with
  | zero =>
    intro k h
    simp only [largestK] at h
    split at h
    · cases h; simpa using ‹tok.isPrefixOf rest = true›
    · cases h
  | succ j2 ih =>
    intro k h
    simp only [largestK] at h
    split at h
    · cases h; exact ⟨le_refl _, by assumption⟩
    · obtain ⟨h1, h2⟩ := ih k h
      exact ⟨by omega, h2⟩

theorem largestK_isSome (tok rest : List Char) :
    ∀ j k, k ≤ j → tok.isPrefixOf (rest.drop k) = true →
      (largestK tok rest j).isSome = true := by
  intro j
  induction j with
  | zero =>
    intro k hk h
    have : k = 0 := by omega
    subst this
    simp only [largestK]
    rw [if_pos (by simpa using h)]
    rfl
  | succ j2 ih =>
    intro k hk h
    simp only [largestK]
    split
    · rfl
    · rcases Nat.lt_or_ge k (j2 + 1) with hlt | hge
      · exact ih k (by omega) h
      · have : k = j2 + 1 := by omega
        subst this
        exact absurd h (by simpa using ‹¬tok.isPrefixOf (rest.drop (j2 + 1)) = true›)

theorem wsSeg_of_le_wsRun (s : List Char) (p k : Nat) (h : k ≤ wsRun (s.drop p)) :
    wsSeg s p (p + k) := by
  intro x hx1 hx2
  obtain ⟨c, hc, hw⟩ := wsRun_ws (s.drop p) (x - p) (by omega)
  rw [List.getElem?_drop] at hc
  have hx : p + (x - p) = x := by omega
  rw [hx] at hc
  exact ⟨c, hc, hw⟩

theorem le_wsRun_of_wsSeg (s : List Char) (p k : Nat) (hk : p + k ≤ s.length)
    (h : wsSeg s p (p + k)) : k ≤ wsRun (s.drop p) := by
  apply le_wsRun_of_ws
  · rw [List.length_drop]; omega
  · intro x hx
    obtain ⟨c, hc, hw⟩ := h (p + x) (by omega) (by omega)
    exact ⟨c, by rw [List.getElem?_drop]; exact hc, hw⟩

theorem le_length_of_lineStart (s : List Char) (p : Nat) (h : lineStart s p = true) :
    p ≤ s.length := by
  simp only [lineStart, decide_eq_true_eq] at h
  rcases h with h | h
  · omega
  · obtain ⟨hlt, -⟩ := List.getElem?_eq_some.mp h
    omega

theorem hasMatch_iff (tok s : List Char) (p : Nat) (hne : tok ≠ []) :
    (matchSingleAt tok s p).isSome = true ↔ HasMatch tok s p := by
  constructor
  · intro h
    unfold matchSingleAt at h
    split at h
    case isTrue hls =>
      cases hlk : largestK tok (s.drop p) (wsRun (s.drop p)) with
      | none => rw [hlk] at h; simp at h
      | some k =>
        obtain ⟨hk1, hk2⟩ := largestK_some _ _ _ _ hlk
        rw [List.drop_drop] at hk2
        exact ⟨by simpa [lineStart] using hls, k, wsSeg_of_le_wsRun s p k hk1, hk2⟩
    case isFalse => simp at h
  · rintro ⟨hls, k, hseg, hpre⟩
    have hbound : p + k + tok.length ≤ s.length :=
      ((isPrefixOf_drop_iff tok s (p + k) hne).mp hpre).1
    have hk : k ≤ wsRun (s.drop p) := le_wsRun_of_wsSeg s p k (by omega) hseg
    have hsome := largestK_isSome tok (s.drop p) (wsRun (s.drop p)) k hk
      (by rw [List.drop_drop]; exact hpre)
    unfold matchSingleAt
    rw [if_pos (by simp [lineStart]; tauto)]
    cases hlk : largestK tok (s.drop p) (wsRun (s.drop p)) with
    | none => rw [hlk] at hsome; simp at hsome
    | some k2 => rfl

/-- Structure and bounds of a successful single-line match. -/
theorem matchSingle_structure (tok s : List Char) (p e : Nat)
    (h : matchSingleAt tok s p = some e) :
    ∃ k, k ≤ wsRun (s.drop p) ∧ tok.isPrefixOf (s.drop (p + k)) = true ∧
      p + k + tok.length ≤ e ∧ e ≤ s.length ∧ (e = s.length ∨ s[e]? = some '\n') := by
  unfold matchSingleAt at h
  split at h
  case isFalse => cases h
  case isTrue hls =>
    have hp : p ≤ s.length := le_length_of_lineStart s p hls
    cases hlk : largestK tok (s.drop p) (wsRun (s.drop p)) with
    | none => rw [hlk] at h; cases h
    | some k =>
      rw [hlk] at h
      injection h with he
      obtain ⟨hk1, hk2⟩ := largestK_some _ _ _ _ hlk
      rw [List.drop_drop] at hk2
      have hwr : wsRun (s.drop p) ≤ s.length - p := by
        have := wsRun_le_length (s.drop p); rwa [List.length_drop] at this
      have htl : tok.length ≤ s.length - (p + k) := by
        have := (List.isPrefixOf_iff_prefix.mp hk2).length_le
        rwa [List.length_drop] at this
      have ha : wsRun (s.drop (p + k + tok.length)) ≤ s.length - (p + k + tok.length) := by
        have := wsRun_le_length (s.drop (p + k + tok.length))
        rwa [List.length_drop] at this
      have hm : nonNlRun (s.drop (p + k + tok.length + wsRun (s.drop (p + k + tok.length)))) ≤
          s.length - (p + k + tok.length + wsRun (s.drop (p + k + tok.length))) := by
        have := nonNlRun_le_length
          (s.drop (p + k + tok.length + wsRun (s.drop (p + k + tok.length))))
        rwa [List.length_drop] at this
      refine ⟨k, hk1, hk2, by omega, by omega, ?_⟩
      rcases nonNlRun_spec
          (s.drop (p + k + tok.length + wsRun (s.drop (p + k + tok.length)))) with hnl | hnl
      · right
        rw [List.getElem?_drop] at hnl
        rw [he] at hnl
        exact hnl
      · left
        rw [List.length_drop] at hnl
        omega

theorem matchSingle_bounds (tok s : List Char) (p e : Nat)
    (h : matchSingleAt tok s p = some e) :
    p ≤ e ∧ e ≤ s.length ∧ p + tok.length ≤ e := by
  obtain ⟨k, -, -, h1, h2, -⟩ := matchSingle_structure tok s p e h
  exact ⟨by omega, h2, by omega⟩

theorem tryC_some (en s : List Char) (pos : Nat) :
    ∀ c e, tryC en s pos c = some e →
      ∃ c2, c2 ≤ c ∧ en.isPrefixOf (s.drop (pos + c2)) = true ∧
        e = pos + c2 + en.length := by
  intro c
  induction c with
  | zero =>
    intro e h
    simp only [tryC] at h
    split at h
    · injection h with he
      exact ⟨0, le_refl _, by simpa using ‹en.isPrefixOf (s.drop pos) = true›, by omega⟩
    · cases h
  | succ c2 ih =>
    intro e h
    simp only [tryC] at h
    split at h
    · injection h with he
      exact ⟨c2 + 1, le_refl _, by assumption, by omega⟩
    · obtain ⟨c3, h1, h2, h3⟩ := ih e h
      exact ⟨c3, by omega, h2, h3⟩

theorem tryB_some (en s : List Char) :
    ∀ f pos e, tryB en s pos f = some e →
      ∃ b c2, b ≤ f ∧ c2 ≤ wsRun (s.drop (pos + b)) ∧
        en.isPrefixOf (s.drop (pos + b + c2)) = true ∧ e = pos + b + c2 + en.length := by
  intro f
  induction f with
  | zero =>
    intro pos e h
    simp only [tryB] at h
    obtain ⟨c2, h1, h2, h3⟩ := tryC_some en s pos _ e h
    exact ⟨0, c2, le_refl _, by simpa using h1, by simpa using h2, by omega⟩
  | succ f2 ih =>
    intro pos e h
    simp only [tryB] at h
    cases htc : tryC en s pos (wsRun (s.drop pos)) with
    | some e2 =>
      rw [htc] at h
      injection h with he
      obtain ⟨c2, h1, h2, h3⟩ := tryC_some en s pos _ e2 htc
      exact ⟨0, c2, by omega, by simpa using h1, by simpa using h2, by omega⟩
    | none =>
      rw [htc] at h
      obtain ⟨b, c2, h1, h2, h3, h4⟩ := ih (pos + 1) e h
      have hb : pos + 1 + b = pos + (b + 1) := by omega
      rw [hb] at h2 h3 h4
      exact ⟨b + 1, c2, by omega, h2, h3, h4⟩

theorem tryA_some (en s : List Char) (q : Nat) :
    ∀ a e, tryA en s q a = some e →
      ∃ a2 b c2, a2 ≤ a ∧ b ≤ s.length - (q + a2) ∧
        c2 ≤ wsRun (s.drop (q + a2 + b)) ∧
        en.isPrefixOf (s.drop (q + a2 + b + c2)) = true ∧
        e = q + a2 + b + c2 + en.length := by
  intro a
  induction a with
  | zero =>
    intro e h
    simp only [tryA] at h
    obtain ⟨b, c2, h1, h2, h3, h4⟩ := tryB_some en s _ q e h
    exact ⟨0, b, c2, le_refl _, by simpa using h1, by simpa using h2,
      by simpa using h3, by omega⟩
  | succ a2 ih =>
    intro e h
    simp only [tryA] at h
    cases htb : tryB en s (q + (a2 + 1)) (s.length - (q + (a2 + 1))) with
    | some e2 =>
      rw [htb] at h
      injection h with he
      obtain ⟨b, c2, h1, h2, h3, h4⟩ := tryB_some en s _ _ e2 htb
      exact ⟨a2 + 1, b, c2, le_refl _, h1, h2, h3, by omega⟩
    | none =>
      rw [htb] at h
      obtain ⟨a3, b, c2, h1, h2, h3, h4, h5⟩ := ih e h
      exact ⟨a3, b, c2, by omega, h2, h3, h4, h5⟩

theorem matchMulti_bounds (st en s : List Char) (p e : Nat)
    (h : matchMultiAt st en s p = some e) :
    p ≤ e ∧ (p ≤ s.length → e ≤ s.length) ∧ p + st.length ≤ e := by
  unfold matchMultiAt at h
  split at h
  case isFalse => cases h
  case isTrue hpre =>
    obtain ⟨a2, b, c2, h1, h2, h3, h4, h5⟩ := tryA_some en s (p + st.length) _ e h
    refine ⟨by omega, fun hp => ?_, by omega⟩
    have hst : st.length ≤ s.length - p := by
      have := (List.isPrefixOf_iff_prefix.mp hpre).length_le
      rwa [List.length_drop] at this
    have hws1 : wsRun (s.drop (p + st.length)) ≤ s.length - (p + st.length) := by
      have := wsRun_le_length (s.drop (p + st.length))
      rwa [List.length_drop] at this
    have hws2 : wsRun (s.drop (p + st.length + a2 + b)) ≤
        s.length - (p + st.length + a2 + b) := by
      have := wsRun_le_length (s.drop (p + st.length + a2 + b))
      rwa [List.length_drop] at this
    have hen : en.length ≤ s.length - (p + st.length + a2 + b + c2) := by
      have := (List.isPrefixOf_iff_prefix.mp h4).length_le
      rwa [List.length_drop] at this
    omega

theorem matchAt_bounds (pat : Pattern) (s : List Char) (p e : Nat)
    (h : matchAt pat s p = some e) :
    p ≤ e ∧ (p ≤ s.length → e ≤ s.length) := by
  cases pat with
  | singleLine tok =>
    obtain ⟨h1, h2, -⟩ := matchSingle_bounds tok s p e h
    exact ⟨h1, fun _ => h2⟩
  | multiLine st en =>
    obtain ⟨h1, h2, -⟩ := matchMulti_bounds st en s p e h
    exact ⟨h1, h2⟩

theorem matchAt_lt_of_nonempty (pat : Pattern) (s : List Char) (p e : Nat)
    (hp : patternNonempty pat) (h : matchAt pat s p = some e) : p < e := by
  cases pat with
  | singleLine tok =>
    obtain ⟨-, -, h3⟩ := matchSingle_bounds tok s p e h
    have : 0 < tok.length := List.length_pos.mpr hp
    omega
  | multiLine st en =>
    obtain ⟨-, -, h3⟩ := matchMulti_bounds st en s p e h
    have : 0 < st.length := List.length_pos.mpr hp.1
    omega

theorem scanFrom_some (pat : Pattern) (s : List Char) :
    ∀ f p s0 e, scanFrom pat s p f = some (s0, e) →
      p ≤ s0 ∧ s0 < p + f ∧ matchAt pat s s0 = some e ∧
        ∀ x, p ≤ x → x < s0 → matchAt pat s x = none := by
  intro f
  induction f with
  | zero => intro p s0 e h; cases h
  | succ f2 ih =>
    intro p s0 e h
    simp only [scanFrom] at h
    cases hm : matchAt pat s p with
    | some e2 =>
      rw [hm] at h
      injection h with he
      injection he with h1 h2
      subst h1
      subst h2
      exact ⟨le_refl _, by omega, hm, fun x hx1 hx2 => by omega⟩
    | none =>
      rw [hm] at h
      obtain ⟨h1, h2, h3, h4⟩ := ih (p + 1) s0 e h
      refine ⟨by omega, by omega, h3, fun x hx1 hx2 => ?_⟩
      rcases Nat.eq_or_lt_of_le hx1 with rfl | hlt
      · exact hm
      · exact h4 x hlt hx2

theorem scanFrom_none (pat : Pattern) (s : List Char) :
    ∀ f p, scanFrom pat s p f = none →
      ∀ x, p ≤ x → x < p + f → matchAt pat s x = none := by
  intro f
  induction f with
  | zero => intro p _ x _ _; omega
  | succ f2 ih =>
    intro p h x hx1 hx2
    simp only [scanFrom] at h
    cases hm : matchAt pat s p with
    | some e2 => rw [hm] at h; cases h
    | none =>
      rw [hm] at h
      rcases Nat.eq_or_lt_of_le hx1 with rfl | hlt
      · exact hm
      · exact ih (p + 1) h x hlt (by omega)

theorem scanFrom_none_of_all (pat : Pattern) (s : List Char)
    (hall : ∀ x, matchAt pat s x = none) :
    ∀ f p, scanFrom pat s p f = none := by
  intro f
  induction f with
  | zero => intro p; rfl
  | succ f2 ih => intro p; simp only [scanFrom, hall p]; exact ih (p + 1)

theorem find_at_some (pat : Pattern) (s : List Char) (off s0 e : Nat)
    (h : find_at pat s off = some (s0, e)) :
    off ≤ s0 ∧ matchAt pat s s0 = some e ∧
      (∀ x, off ≤ x → x < s0 → matchAt pat s x = none) ∧
      (off ≤ s.length → s0 ≤ s.length) := by
  obtain ⟨h1, h2, h3, h4⟩ := scanFrom_some pat s _ off s0 e h
  exact ⟨h1, h3, h4, fun hoff => by omega⟩

theorem find_at_none (pat : Pattern) (s : List Char) (off : Nat)
    (hoff : off ≤ s.length) (h : find_at pat s off = none) :
    ∀ x, off ≤ x → x ≤ s.length → matchAt pat s x = none := by
  intro x hx1 hx2
  exact scanFrom_none pat s _ off h x hx1 (by omega)

theorem find_at_none_of_all (pat : Pattern) (s : List Char) (off : Nat)
    (hall : ∀ x, matchAt pat s x = none) : find_at pat s off = none :=
  scanFrom_none_of_all pat s hall _ off

/-! ## Engine-level lemmas -/

theorem take_drop_sublist (l : List Char) (s e : Nat) (hse : s ≤ e) :
    (l.take s ++ l.drop e).Sublist l := by
  have h1 : (l.drop e).Sublist (l.drop s) := by
    have hd : l.drop e = (l.drop s).drop (e - s) := by
      rw [List.drop_drop]
      congr 1
      omega
    rw [hd]
    exact List.drop_sublist _ _
  have h2 := h1.append_left (l.take s)
  rwa [List.take_append_drop] at h2

theorem length_take_append_drop (l : List Char) (s e : Nat) (hse : s ≤ e)
    (hel : e ≤ l.length) :
    (l.take s ++ l.drop e).length = s + (l.length - e) := by
  simp only [List.length_append, List.length_take, List.length_drop]
  omega

theorem runPatternLoop_succ_none (pat : Pattern) (auto : Bool) (f2 : Nat) (st : ScanState)
    (hf : find_at pat st.result st.offset = none) :
    runPatternLoop pat auto (f2 + 1) st = some st := by
  simp only [runPatternLoop, hf]

theorem runPatternLoop_succ_some (pat : Pattern) (auto : Bool) (f2 : Nat) (st : ScanState)
    (s e : Nat) (hf : find_at pat st.result st.offset = some (s, e)) :
    runPatternLoop pat auto (f2 + 1) st =
      if (should_remove_comment ((st.result.drop s).take (e - s)) auto st.stdin).1 = true then
        runPatternLoop pat auto f2
          ⟨st.result.take s ++ st.result.drop e, s, st.found + 1, st.removed + 1,
            (should_remove_comment ((st.result.drop s).take (e - s)) auto st.stdin).2⟩
      else
        runPatternLoop pat auto f2
          ⟨st.result, e, st.found + 1, st.removed,
            (should_remove_comment ((st.result.drop s).take (e - s)) auto st.stdin).2⟩ := by
  simp only [runPatternLoop, hf]

theorem runPatternLoop_sublist (pat : Pattern) (auto : Bool) :
    ∀ fuel st st',
      st.offset ≤ st.result.length →
      runPatternLoop pat auto fuel st = some st' →
      st'.result.Sublist st.result ∧ st'.offset ≤ st'.result.length := by
  intro fuel
  induction fuel with
  | zero => intro st st' _ h; cases h
  | succ f2 ih =>
    intro st st' hoff h
    simp only [runPatternLoop] at h
    split at h
    next =>
      injection h with he
      subst he
      exact ⟨List.Sublist.refl _, hoff⟩
    next s e hf =>
      obtain ⟨ho1, hm2, -, hs⟩ := find_at_some pat st.result st.offset s e hf
      have hsl := hs hoff
      obtain ⟨hse, hb⟩ := matchAt_bounds pat st.result s e hm2
      have hel : e ≤ st.result.length := hb hsl
      have hlen := length_take_append_drop st.result s e hse hel
      split at h
      · have hres := fun hpre => ih _ st' hpre h
        obtain ⟨ih1, ih2⟩ := hres
          (by show s ≤ (st.result.take s ++ st.result.drop e).length; rw [hlen]; omega)
        exact ⟨ih1.trans (take_drop_sublist st.result s e hse), ih2⟩
      · have hres := fun hpre => ih _ st' hpre h
        obtain ⟨ih1, ih2⟩ := hres (by show e ≤ st.result.length; omega)
        exact ⟨ih1, ih2⟩

theorem runPatterns_sublist (auto : Bool) (fuel : Nat) :
    ∀ ps st st', runPatterns auto fuel ps st = some st' →
      st'.result.Sublist st.result := by
  intro ps
  induction ps with
  | nil =>
    intro st st' h
    injection h with he
    subst he
    exact List.Sublist.refl _
  | cons p ps ih =>
    intro st st' h
    simp only [runPatterns] at h
    cases hl : runPatternLoop p auto fuel ⟨st.result, 0, st.found, st.removed, st.stdin⟩ with
    | none => rw [hl] at h; cases h
    | some st1 =>
      rw [hl] at h
      have h1 := (runPatternLoop_sublist p auto fuel _ st1 (by simp) hl).1
      exact (ih st1 st' h).trans h1

/-- Any result returned by the remover is a sublist of the input content:
characters outside the deleted spans survive verbatim, in order. -/
theorem remove_comments_sublist (content : List Char) (ps : List Pattern) (auto : Bool)
    (stdin : List (List Char)) (fuel : Nat) (out : List Char) (f r : Nat)
    (h : remove_comments content ps auto stdin fuel = some (out, f, r)) :
    out.Sublist content := by
  unfold remove_comments at h
  cases hr : runPatterns auto fuel ps ⟨content, 0, 0, 0, stdin⟩ with
  | none => rw [hr] at h; cases h
  | some st =>
    rw [hr] at h
    injection h with he
    have h1 := runPatterns_sublist auto fuel ps _ st hr
    have : st.result = out := congrArg Prod.fst he
    rwa [this] at h1

theorem runPatternLoop_counters (pat : Pattern) (auto : Bool) :
    ∀ fuel st st', runPatternLoop pat auto fuel st = some st' →
      st.found ≤ st'.found ∧ st.removed ≤ st'.removed ∧
        st'.removed + st.found ≤ st'.found + st.removed := by
  intro fuel
  induction fuel with
  | zero => intro st st' h; cases h
  | succ f2 ih =>
    intro st st' h
    simp only [runPatternLoop] at h
    split at h
    next =>
      injection h with he
      subst he
      omega
    next s e hf =>
      split at h
      · obtain ⟨h1, h2, h3⟩ := ih _ st' h
        simp only at h1 h2 h3
        omega
      · obtain ⟨h1, h2, h3⟩ := ih _ st' h
        simp only at h1 h2 h3
        omega

theorem runPatterns_counters (auto : Bool) (fuel : Nat) :
    ∀ ps st st', runPatterns auto fuel ps st = some st' →
      st.found ≤ st'.found ∧ st.removed ≤ st'.removed ∧
        st'.removed + st.found ≤ st'.found + st.removed := by
  intro ps
  induction ps with
  | nil =>
    intro st st' h
    injection h with he
    subst he
    omega
  | cons p ps ih =>
    intro st st' h
    simp only [runPatterns] at h
    cases hl : runPatternLoop p auto fuel ⟨st.result, 0, st.found, st.removed, st.stdin⟩ with
    | none => rw [hl] at h; cases h
    | some st1 =>
      rw [hl] at h
      obtain ⟨h1, h2, h3⟩ := runPatternLoop_counters p auto fuel _ st1 hl
      obtain ⟨h4, h5, h6⟩ := ih st1 st' h
      simp only at h1 h2 h3
      omega

/-- The counters always satisfy `comments_removed ≤ comments_found`. -/
theorem remove_comments_removed_le_found (content : List Char) (ps : List Pattern)
    (auto : Bool) (stdin : List (List Char)) (fuel : Nat) (out : List Char) (f r : Nat)
    (h : remove_comments content ps auto stdin fuel = some (out, f, r)) : r ≤ f := by
  unfold remove_comments at h
  cases hr : runPatterns auto fuel ps ⟨content, 0, 0, 0, stdin⟩ with
  | none => rw [hr] at h; cases h
  | some st =>
    rw [hr] at h
    injection h with he
    obtain ⟨h1, h2, h3⟩ := runPatterns_counters auto fuel ps _ st hr
    have hf : st.found = f := by
      have := congrArg (fun x => x.2.1) he
      simpa using this
    have hrm : st.removed = r := by
      have := congrArg (fun x => x.2.2) he
      simpa using this
    simp only at h1 h2 h3
    omega

/-- Frame property of one pattern's pass: everything strictly before the
current cursor is never touched again during this pass. -/
theorem runPatternLoop_frame (pat : Pattern) (auto : Bool) :
    ∀ fuel st st' (m : Nat),
      st.offset ≤ st.result.length → m ≤ st.offset →
      runPatternLoop pat auto fuel st = some st' →
      st'.result.take m = st.result.take m := by
  intro fuel
  induction fuel with
  | zero => intro st st' m _ _ h; cases h
  | succ f2 ih =>
    intro st st' m hoff hm h
    simp only [runPatternLoop] at h
    split at h
    next =>
      injection h with he
      subst he
      rfl
    next s e hf =>
      obtain ⟨ho1, hmm, -, hs⟩ := find_at_some pat st.result st.offset s e hf
      have hsl := hs hoff
      obtain ⟨hse, hb⟩ := matchAt_bounds pat st.result s e hmm
      have hel : e ≤ st.result.length := hb hsl
      have hlen := length_take_append_drop st.result s e hse hel
      split at h
      · have hres := fun hpre hpre2 => ih _ st' m hpre hpre2 h
        have htk := hres
          (by show s ≤ (st.result.take s ++ st.result.drop e).length; rw [hlen]; omega)
          (by show m ≤ s; omega)
        have htk2 : st'.result.take m = (st.result.take s ++ st.result.drop e).take m := htk
        rw [htk2]
        rw [List.take_append_of_le_length (by rw [List.length_take]; omega)]
        rw [List.take_take]
        congr 1
        omega
      · have hres := fun hpre hpre2 => ih _ st' m hpre hpre2 h
        exact hres (by show e ≤ st.result.length; omega) (by show m ≤ e; omega)

/-- Rejection frame: when the confirmation policy answers `false` for the
match `[s, e)` found at the current cursor, the first `e` characters of
the working copy — in particular the rejected span itself — are unchanged
at the end of this pattern's pass. -/
theorem runPatternLoop_reject_frame (pat : Pattern) (auto : Bool) (fuel : Nat)
    (st st' : ScanState) (s e : Nat)
    (hoff : st.offset ≤ st.result.length)
    (hf : find_at pat st.result st.offset = some (s, e))
    (hd : (should_remove_comment ((st.result.drop s).take (e - s)) auto st.stdin).1 = false)
    (h : runPatternLoop pat auto (fuel + 1) st = some st') :
    st'.result.take e = st.result.take e := by
  simp only [runPatternLoop, hf] at h
  split at h
  next hcond =>
    rw [hd] at hcond
    cases hcond
  next =>
    obtain ⟨ho1, hmm, -, hs⟩ := find_at_some pat st.result st.offset s e hf
    have hsl := hs hoff
    obtain ⟨hse, hb⟩ := matchAt_bounds pat st.result s e hmm
    have hel : e ≤ st.result.length := hb hsl
    exact (fun hp1 hp2 => runPatternLoop_frame pat auto fuel _ st' e hp1 hp2 h)
      (by show e ≤ st.result.length; omega) (by show e ≤ e; omega)

/-! ### Termination under non-empty tokens -/

theorem runPatternLoop_terminates (pat : Pattern) (auto : Bool) (hp : patternNonempty pat) :
    ∀ fuel st,
      st.offset ≤ st.result.length →
      st.result.length + 1 ≤ fuel + st.offset →
      (runPatternLoop pat auto fuel st).isSome = true := by
  intro fuel
  induction fuel with
  | zero => intro st h1 h2; exact absurd h2 (by omega)
  | succ f2 ih =>
    intro st hoff hfuel
    cases hf : find_at pat st.result st.offset with
    | none => rw [runPatternLoop_succ_none pat auto f2 st hf]; rfl
    | some pe =>
      obtain ⟨s, e⟩ := pe
      obtain ⟨ho1, hmm, -, hs⟩ := find_at_some pat st.result st.offset s e hf
      have hsl := hs hoff
      obtain ⟨hse, hb⟩ := matchAt_bounds pat st.result s e hmm
      have hel : e ≤ st.result.length := hb hsl
      have hlt : s < e := matchAt_lt_of_nonempty pat st.result s e hp hmm
      have hlen := length_take_append_drop st.result s e hse hel
      rw [runPatternLoop_succ_some pat auto f2 st s e hf]
      split
      · apply ih
        · show s ≤ (st.result.take s ++ st.result.drop e).length
          rw [hlen]; omega
        · show (st.result.take s ++ st.result.drop e).length + 1 ≤ f2 + s
          rw [hlen]; omega
      · apply ih
        · show e ≤ st.result.length
          omega
        · show st.result.length + 1 ≤ f2 + e
          omega

theorem runPatterns_terminates (auto : Bool) (fuel : Nat) :
    ∀ ps st,
      (∀ pat ∈ ps, patternNonempty pat) →
      st.result.length + 1 ≤ fuel →
      (runPatterns auto fuel ps st).isSome = true := by
  intro ps
  induction ps with
  | nil => intro st _ _; rfl
  | cons p ps ih =>
    intro st hps hlen
    simp only [runPatterns]
    cases hl : runPatternLoop p auto fuel ⟨st.result, 0, st.found, st.removed, st.stdin⟩ with
    | none =>
      have := runPatternLoop_terminates p auto (hps p (by simp)) fuel
        ⟨st.result, 0, st.found, st.removed, st.stdin⟩ (by simp) (by simpa using hlen)
      rw [hl] at this
      cases this
    | some st1 =>
      have h1 := (runPatternLoop_sublist p auto fuel _ st1 (by simp) hl).1
      simp only at h1
      exact ih st1 (fun pat hpat => hps pat (by simp [hpat]))
        (by have := h1.length_le; omega)

/-! ### Automatic mode: stdin is never consumed and never matters -/

theorem should_remove_comment_auto (c : List Char) (sd : List (List Char)) :
    should_remove_comment c true sd = (true, sd) := rfl

theorem runPatternLoop_auto_stdin (pat : Pattern) :
    ∀ fuel R o f r (sd sd' : List (List Char)) st',
      runPatternLoop pat true fuel ⟨R, o, f, r, sd⟩ = some st' →
      runPatternLoop pat true fuel ⟨R, o, f, r, sd'⟩ =
        some ⟨st'.result, st'.offset, st'.found, st'.removed, sd'⟩ ∧ st'.stdin = sd := by
  intro fuel
  induction fuel with
  | zero => intro R o f r sd sd' st' h; cases h
  | succ f2 ih =>
    intro R o f r sd sd' st' h
    simp only [runPatternLoop, should_remove_comment_auto] at h
    split at h
    next hf =>
      injection h with he
      subst he
      refine ⟨?_, rfl⟩
      simp only [runPatternLoop, hf]
    next s e hf =>
      split at h
      next hcond =>
        obtain ⟨ih1, ih2⟩ := ih _ _ _ _ sd sd' st' h
        refine ⟨?_, ih2⟩
        simp only [runPatternLoop, hf, should_remove_comment_auto]
        rw [if_pos trivial]
        exact ih1
      next hcond =>
        simp at hcond

theorem runPatterns_auto_stdin (fuel : Nat) :
    ∀ ps R o f r (sd sd' : List (List Char)) st',
      runPatterns true fuel ps ⟨R, o, f, r, sd⟩ = some st' →
      runPatterns true fuel ps ⟨R, o, f, r, sd'⟩ =
        some ⟨st'.result, st'.offset, st'.found, st'.removed, sd'⟩ := by
  intro ps
  induction ps with
  | nil =>
    intro R o f r sd sd' st' h
    injection h with he
    subst he
    rfl
  | cons p ps ih =>
    intro R o f r sd sd' st' h
    simp only [runPatterns] at h
    split at h
    next => cases h
    next st1 hl =>
      obtain ⟨hl', hsd⟩ := runPatternLoop_auto_stdin p fuel R 0 f r sd sd' st1 hl
      have hst1 : st1 = ⟨st1.result, st1.offset, st1.found, st1.removed, sd⟩ := by
        cases st1
        simp only at hsd
        simp [hsd]
      rw [hst1] at h
      have htail := ih _ _ _ _ sd sd' st' h
      simp only [runPatterns]
      rw [hl']
      exact htail

/-- In automatic mode the run is independent of stdin. -/
theorem remove_comments_auto_stdin (content : List Char) (ps : List Pattern)
    (sd sd' : List (List Char)) (fuel : Nat) :
    remove_comments content ps true sd fuel = remove_comments content ps true sd' fuel := by
  unfold remove_comments
  cases h : runPatterns true fuel ps ⟨content, 0, 0, 0, sd⟩ with
  | none =>
    cases h' : runPatterns true fuel ps ⟨content, 0, 0, 0, sd'⟩ with
    | none => rfl
    | some st' =>
      have := runPatterns_auto_stdin fuel ps content 0 0 0 sd' sd st' h'
      rw [h] at this
      cases this
  | some st =>
    have := runPatterns_auto_stdin fuel ps content 0 0 0 sd sd' st h
    rw [this]

theorem runPatternLoop_auto_removed (pat : Pattern) :
    ∀ fuel st st', runPatternLoop pat true fuel st = some st' →
      st'.removed + st.found = st'.found + st.removed := by
  intro fuel
  induction fuel with
  | zero => intro st st' h; cases h
  | succ f2 ih =>
    intro st st' h
    simp only [runPatternLoop, should_remove_comment_auto] at h
    split at h
    next =>
      injection h with he
      subst he
      omega
    next s e hf =>
      split at h
      next hcond =>
        have := ih _ st' h
        simp only at this
        omega
      next hcond => simp at hcond

theorem runPatterns_auto_removed (fuel : Nat) :
    ∀ ps st st', runPatterns true fuel ps st = some st' →
      st'.removed + st.found = st'.found + st.removed := by
  intro ps
  induction ps with
  | nil =>
    intro st st' h
    injection h with he
    subst he
    omega
  | cons p ps ih =>
    intro st st' h
    simp only [runPatterns] at h
    cases hl : runPatternLoop p true fuel ⟨st.result, 0, st.found, st.removed, st.stdin⟩ with
    | none => rw [hl] at h; cases h
    | some st1 =>
      rw [hl] at h
      have h1 := runPatternLoop_auto_removed p fuel _ st1 hl
      have h2 := ih st1 st' h
      simp only at h1
      omega

/-- In automatic mode every found comment is removed. -/
theorem remove_comments_auto_removed_eq_found (content : List Char) (ps : List Pattern)
    (sd : List (List Char)) (fuel : Nat) (out : List Char) (f r : Nat)
    (h : remove_comments content ps true sd fuel = some (out, f, r)) : r = f := by
  unfold remove_comments at h
  cases hr : runPatterns true fuel ps ⟨content, 0, 0, 0, sd⟩ with
  | none => rw [hr] at h; cases h
  | some st =>
    rw [hr] at h
    injection h with he
    have h1 := runPatterns_auto_removed fuel ps _ st hr
    have hf : st.found = f := by
      have := congrArg (fun x => x.2.1) he
      simpa using this
    have hrm : st.removed = r := by
      have := congrArg (fun x => x.2.2) he
      simpa using this
    simp only at h1
    omega

/-! ## Transport of single-line matches through a span removal

These lemmas show that deleting an accepted single-line match `[s, e)`
from the working copy can never create a match of a newline-free token at
a position the scan has already passed: any match of the spliced string
`R.take s ++ R.drop e` is reflected by a match of the original string,
either at the same position (token inside the untouched region) or
strictly after the removed span. -/

theorem matchSingle_none_gt (tok R : List Char) (p : Nat) (h : R.length < p) :
    matchSingleAt tok R p = none := by
  have hc : lineStart R p = false := by
    simp only [lineStart]
    rw [decide_eq_false_iff_not]
    rintro (h0 | hnl)
    · omega
    · rw [List.getElem?_eq_none (show R.length ≤ p - 1 by omega)] at hnl
      cases hnl
  simp [matchSingleAt, hc]

theorem nl_mem_of_getElem (tok : List Char) (i : Nat) (h : tok[i]? = some '\n') :
    '\n' ∈ tok := by
  obtain ⟨hlt, hEq⟩ := List.getElem?_eq_some.mp h
  rw [← hEq]
  exact List.getElem_mem hlt

theorem RP_get_lt (R : List Char) (s e y : Nat) (hy : y < s) (hsl : s ≤ R.length) :
    (R.take s ++ R.drop e)[y]? = R[y]? := by
  rw [List.getElem?_append]
  rw [List.length_take]
  rw [if_pos (by omega)]
  rw [List.getElem?_take, if_pos hy]

theorem RP_get_ge (R : List Char) (s e y : Nat) (hse : s ≤ e) (hel : e ≤ R.length)
    (hy : s ≤ y) :
    (R.take s ++ R.drop e)[y]? = R[y + (e - s)]? := by
  rw [List.getElem?_append]
  rw [List.length_take]
  rw [if_neg (by omega)]
  rw [List.getElem?_drop]
  have hidx : s ⊓ R.length = s := by omega
  rw [hidx]
  have hidx2 : e + (y - s) = y + (e - s) := by omega
  rw [hidx2]

/-- Token occurrence entirely inside the untouched region `[0, s)`:
the spliced match existed verbatim in the original string. -/
theorem transport_inside (tok : List Char) (hne : tok ≠ [])
    (R : List Char) (s e : Nat) (hse : s ≤ e) (hel : e ≤ R.length)
    (q k2 : Nat) (hc1 : q + k2 + tok.length ≤ s)
    (hls2 : q = 0 ∨ (R.take s ++ R.drop e)[q - 1]? = some '\n')
    (hseg2 : wsSeg (R.take s ++ R.drop e) q (q + k2))
    (hp2 : ∀ i, i < tok.length → (R.take s ++ R.drop e)[q + k2 + i]? = tok[i]?) :
    HasMatch tok R q := by
  have hsl : s ≤ R.length := by omega
  have hT : 0 < tok.length := List.length_pos.mpr hne
  refine ⟨?_, k2, ?_, ?_⟩
  · rcases hls2 with h0 | hnl2
    · exact Or.inl h0
    · right
      rwa [RP_get_lt R s e (q - 1) (by omega) hsl] at hnl2
  · intro x hx1 hx2
    obtain ⟨c, hc, hw⟩ := hseg2 x hx1 hx2
    exact ⟨c, by rwa [RP_get_lt R s e x (by omega) hsl] at hc, hw⟩
  · rw [isPrefixOf_drop_iff tok R (q + k2) hne]
    refine ⟨by omega, fun i hi => ?_⟩
    have hpi := hp2 i hi
    rwa [RP_get_lt R s e (q + k2 + i) (by omega) hsl] at hpi

/-- Token occurrence starting at or after the seam position `s`: either
the token would have to start with the newline sitting at `R[e]`, or the
original string has a match of the same token strictly after `e`. -/
theorem transport_seam (tok : List Char) (hne : tok ≠ [])
    (R : List Char) (s e : Nat) (hse : s ≤ e) (hel : e ≤ R.length)
    (he_lt : e < R.length) (hnle : R[e]? = some '\n')
    (q k2 : Nat) (hqk : s ≤ q + k2)
    (hls2 : q = 0 ∨ (R.take s ++ R.drop e)[q - 1]? = some '\n')
    (hseg2 : wsSeg (R.take s ++ R.drop e) q (q + k2))
    (hb2 : q + k2 + tok.length ≤ (R.take s ++ R.drop e).length)
    (hp2 : ∀ i, i < tok.length → (R.take s ++ R.drop e)[q + k2 + i]? = tok[i]?) :
    '\n' ∈ tok ∨ ∃ p2, HasMatch tok R p2 := by
  have hsl : s ≤ R.length := by omega
  have hT : 0 < tok.length := List.length_pos.mpr hne
  have hRlen : (R.take s ++ R.drop e).length = s + (R.length - e) := by
    simp only [List.length_append, List.length_take, List.length_drop]
    omega
  rw [hRlen] at hb2
  rcases Nat.lt_or_ge s q with hsq | hqs
  · -- `s < q`: the whole match lives in the shifted suffix
    right
    refine ⟨q + (e - s), ?_, k2, ?_, ?_⟩
    · rcases hls2 with h0 | hnl2
      · exact absurd h0 (by omega)
      · right
        rw [RP_get_ge R s e (q - 1) hse hel (by omega)] at hnl2
        have hidx : q - 1 + (e - s) = q + (e - s) - 1 := by omega
        rwa [hidx] at hnl2
    · intro x hx1 hx2
      obtain ⟨c, hc, hw⟩ := hseg2 (x - (e - s)) (by omega) (by omega)
      refine ⟨c, ?_, hw⟩
      rw [RP_get_ge R s e (x - (e - s)) hse hel (by omega)] at hc
      have hidx : x - (e - s) + (e - s) = x := by omega
      rwa [hidx] at hc
    · rw [isPrefixOf_drop_iff tok R _ hne]
      refine ⟨by omega, fun i hi => ?_⟩
      have hpi := hp2 i hi
      rw [RP_get_ge R s e (q + k2 + i) hse hel (by omega)] at hpi
      have hidx : q + k2 + i + (e - s) = q + (e - s) + k2 + i := by omega
      rwa [hidx] at hpi
  · rcases Nat.eq_or_lt_of_le hqk with heq | hgt
    · -- the token starts exactly at the seam: its first character is `R[e]`
      left
      have hpi := hp2 0 hT
      rw [RP_get_ge R s e (q + k2 + 0) hse hel (by omega)] at hpi
      have hidx : q + k2 + 0 + (e - s) = e := by omega
      rw [hidx] at hpi
      rw [hnle] at hpi
      exact nl_mem_of_getElem tok 0 hpi.symm
    · -- the token starts strictly after the seam: match at `e + 1` in `R`
      right
      refine ⟨e + 1, Or.inr (by simpa using hnle), q + k2 + (e - s) - (e + 1), ?_, ?_⟩
      · intro x hx1 hx2
        have hx2b : x < q + k2 + (e - s) := by omega
        obtain ⟨c, hc, hw⟩ := hseg2 (x - (e - s)) (by omega) (by omega)
        refine ⟨c, ?_, hw⟩
        rw [RP_get_ge R s e (x - (e - s)) hse hel (by omega)] at hc
        have hidx : x - (e - s) + (e - s) = x := by omega
        rwa [hidx] at hc
      · rw [isPrefixOf_drop_iff tok R _ hne]
        have hidx : e + 1 + (q + k2 + (e - s) - (e + 1)) = q + k2 + (e - s) := by omega
        rw [hidx]
        refine ⟨by omega, fun i hi => ?_⟩
        have hpi := hp2 i hi
        rw [RP_get_ge R s e (q + k2 + i) hse hel (by omega)] at hpi
        have hidx2 : q + k2 + i + (e - s) = q + k2 + (e - s) + i := by omega
        rwa [hidx2] at hpi

/-- Removing the leftmost match at or after the scan position cannot
create a match of the same (non-empty, newline-free) token before the
match's start. -/
theorem transport_self (tok : List Char) (hne : tok ≠ []) (hnl : '\n' ∉ tok)
    (R : List Char) (s e : Nat)
    (hm : matchSingleAt tok R s = some e)
    (hlt : ∀ p, p < s → matchSingleAt tok R p = none) :
    ∀ q, q < s → matchSingleAt tok (R.take s ++ R.drop e) q = none := by
  intro q hq
  by_contra hcon
  have hsome := Option.ne_none_iff_isSome.mp hcon
  obtain ⟨hls2, k2, hseg2, hpre2⟩ := (hasMatch_iff tok _ q hne).mp hsome
  obtain ⟨hse, hel, hTi⟩ := matchSingle_bounds tok R s e hm
  obtain ⟨k0, hk0, hpre0, hlen0, -, hend⟩ := matchSingle_structure tok R s e hm
  have hsl : s ≤ R.length := by omega
  have hT : 0 < tok.length := List.length_pos.mpr hne
  obtain ⟨hb2, hp2⟩ := (isPrefixOf_drop_iff tok _ (q + k2) hne).mp hpre2
  have hnoq : ¬ HasMatch tok R q := by
    intro hmq
    have := (hasMatch_iff tok R q hne).mpr hmq
    rw [hlt q hq] at this
    simp at this
  rcases Nat.lt_or_ge (q + k2 + tok.length) (s + 1) with hc1 | hc1
  · exact hnoq (transport_inside tok hne R s e hse hel q k2 (by omega) hls2 hseg2 hp2)
  rcases Nat.lt_or_ge (q + k2) s with hc2 | hc2
  · -- the token would cover the newline at `s - 1`
    have hm_isSome : (matchSingleAt tok R s).isSome = true := by rw [hm]; rfl
    obtain ⟨hls0, -⟩ := (hasMatch_iff tok R s hne).mp hm_isSome
    have hnl0 : R[s - 1]? = some '\n' := by
      rcases hls0 with h0 | h
      · exact absurd h0 (by omega)
      · exact h
    have hpi := hp2 (s - 1 - (q + k2)) (by omega)
    have hidx : q + k2 + (s - 1 - (q + k2)) = s - 1 := by omega
    rw [hidx] at hpi
    rw [RP_get_lt R s e (s - 1) (by omega) hsl] at hpi
    rw [hnl0] at hpi
    exact hnl (nl_mem_of_getElem tok _ hpi.symm)
  · -- whitespace reaches the removed match's own leading run and token
    have hseg0 : wsSeg R s (s + k0) := wsSeg_of_le_wsRun R s k0 hk0
    apply hnoq
    refine ⟨?_, s + k0 - q, ?_, ?_⟩
    · rcases hls2 with h0 | hnl2
      · exact Or.inl h0
      · right
        rwa [RP_get_lt R s e (q - 1) (by omega) hsl] at hnl2
    · intro x hx1 hx2
      rcases Nat.lt_or_ge x s with hxs | hxs
      · obtain ⟨c, hc, hw⟩ := hseg2 x hx1 (by omega)
        exact ⟨c, by rwa [RP_get_lt R s e x hxs hsl] at hc, hw⟩
      · exact hseg0 x hxs (by omega)
    · have hidx : q + (s + k0 - q) = s + k0 := by omega
      rw [hidx]
      exact hpre0

/-- Removing a match of one token cannot create a match of another
non-empty, newline-free token anywhere, if that token had no match at all
before the removal. -/
theorem transport_other (toki tok : List Char) (hni : toki ≠ [])
    (hne : tok ≠ []) (hnl : '\n' ∉ tok)
    (R : List Char) (s e : Nat)
    (hm : matchSingleAt toki R s = some e)
    (hnone : ∀ p, matchSingleAt tok R p = none) :
    ∀ q, matchSingleAt tok (R.take s ++ R.drop e) q = none := by
  intro q
  by_contra hcon
  have hsome := Option.ne_none_iff_isSome.mp hcon
  obtain ⟨hls2, k2, hseg2, hpre2⟩ := (hasMatch_iff tok _ q hne).mp hsome
  obtain ⟨hse, hel, hTi⟩ := matchSingle_bounds toki R s e hm
  obtain ⟨k0, hk0, hpre0, hlen0, -, hend⟩ := matchSingle_structure toki R s e hm
  have hsl : s ≤ R.length := by omega
  have hT : 0 < tok.length := List.length_pos.mpr hne
  obtain ⟨hb2, hp2⟩ := (isPrefixOf_drop_iff tok _ (q + k2) hne).mp hpre2
  have hnop : ∀ p2, ¬ HasMatch tok R p2 := by
    intro p2 hmq
    have := (hasMatch_iff tok R p2 hne).mpr hmq
    rw [hnone p2] at this
    simp at this
  have hRlen : (R.take s ++ R.drop e).length = s + (R.length - e) := by
    simp only [List.length_append, List.length_take, List.length_drop]
    omega
  rcases Nat.lt_or_ge (q + k2) s with hc2 | hc2
  · -- token begins inside the untouched prefix
    rcases Nat.lt_or_ge (q + k2 + tok.length) (s + 1) with hc1 | hc1
    · exact hnop q (transport_inside tok hne R s e hse hel q k2 (by omega) hls2 hseg2 hp2)
    · -- the token would cover the newline at `s - 1`
      have hm_isSome : (matchSingleAt toki R s).isSome = true := by rw [hm]; rfl
      obtain ⟨hls0, -⟩ := (hasMatch_iff toki R s hni).mp hm_isSome
      have hnl0 : R[s - 1]? = some '\n' := by
        rcases hls0 with h0 | h
        · exact absurd h0 (by omega)
        · exact h
      have hpi := hp2 (s - 1 - (q + k2)) (by omega)
      have hidx : q + k2 + (s - 1 - (q + k2)) = s - 1 := by omega
      rw [hidx] at hpi
      rw [RP_get_lt R s e (s - 1) (by omega) hsl] at hpi
      rw [hnl0] at hpi
      exact hnl (nl_mem_of_getElem tok _ hpi.symm)
  · -- token begins at or after the seam
    have he_lt : e < R.length := by
      rcases Nat.lt_or_ge e R.length with h | h
      · exact h
      · rw [hRlen] at hb2
        exact absurd hb2 (by omega)
    have hnle : R[e]? = some '\n' := by
      rcases hend with h | h
      · exact absurd h (by omega)
      · exact h
    rcases transport_seam tok hne R s e hse hel he_lt hnle q k2 hc2 hls2 hseg2 hb2 hp2 with
      hmem | ⟨p2, hmq⟩
    · exact hnl hmem
    · exact hnop p2 hmq

/-- Invariant of one automatic pass of a single-line pattern: afterwards
its token has no match anywhere in the working copy, and any other good
token with no matches keeps having none. -/
theorem runPatternLoop_single_post (tok : List Char) (hne : tok ≠ []) (hnl : '\n' ∉ tok) :
    ∀ fuel st st',
      st.offset ≤ st.result.length →
      (∀ p, p < st.offset → matchSingleAt tok st.result p = none) →
      runPatternLoop (.singleLine tok) true fuel st = some st' →
      (∀ p, matchSingleAt tok st'.result p = none) ∧
      (∀ tok2, tok2 ≠ [] → '\n' ∉ tok2 →
        (∀ p, matchSingleAt tok2 st.result p = none) →
        ∀ p, matchSingleAt tok2 st'.result p = none) := by
  intro fuel
  induction fuel with
  | zero => intro st st' _ _ h; cases h
  | succ f2 ih =>
    intro st st' hoff hbelow h
    cases hf : find_at (.singleLine tok) st.result st.offset with
    | none =>
      rw [runPatternLoop_succ_none _ _ _ _ hf] at h
      injection h with he
      subst he
      constructor
      · intro p
        rcases Nat.lt_or_ge p st.offset with hp | hp
        · exact hbelow p hp
        · rcases Nat.lt_or_ge st.result.length p with hgt | hle
          · exact matchSingle_none_gt tok st.result p hgt
          · exact find_at_none _ _ _ hoff hf p hp hle
      · intro tok2 _ _ hcl p
        exact hcl p
    | some pe =>
      obtain ⟨s, e⟩ := pe
      rw [runPatternLoop_succ_some _ _ _ _ s e hf] at h
      split at h
      case isFalse hcond => exact absurd rfl hcond
      case isTrue hcond =>
        obtain ⟨ho1, hmm2, hmin, hs⟩ := find_at_some _ st.result st.offset s e hf
        have hm : matchSingleAt tok st.result s = some e := hmm2
        have hsl := hs hoff
        obtain ⟨hse2, hel2, -⟩ := matchSingle_bounds tok st.result s e hm
        have hbelow_s : ∀ p, p < s → matchSingleAt tok st.result p = none := by
          intro p hp
          rcases Nat.lt_or_ge p st.offset with h1 | h1
          · exact hbelow p h1
          · exact hmin p h1 hp
        have hself := transport_self tok hne hnl st.result s e hm hbelow_s
        have hlen := length_take_append_drop st.result s e hse2 hel2
        have hres := fun hpre1 hpre2 => ih _ st' hpre1 hpre2 h
        obtain ⟨post1, post2⟩ := hres
          (by show s ≤ (st.result.take s ++ st.result.drop e).length
              rw [hlen]; omega)
          (by show ∀ p, p < s →
                matchSingleAt tok (st.result.take s ++ st.result.drop e) p = none
              exact hself)
        refine ⟨post1, ?_⟩
        intro tok2 hne2 hnl2 hcl p
        exact post2 tok2 hne2 hnl2
          (transport_other tok tok2 hne hne2 hnl2 st.result s e hm hcl) p

/-- After a full automatic run over single-line patterns with good tokens,
no pattern of the list matches anywhere in the final working copy. -/
theorem runPatterns_single_post (fuel : Nat) :
    ∀ ps st st',
      (∀ pat ∈ ps, ∃ tok, pat = Pattern.singleLine tok ∧ tok ≠ [] ∧ '\n' ∉ tok) →
      runPatterns true fuel ps st = some st' →
      (∀ tok2, tok2 ≠ [] → '\n' ∉ tok2 →
        (∀ p, matchSingleAt tok2 st.result p = none) →
        ∀ p, matchSingleAt tok2 st'.result p = none) ∧
      (∀ pat ∈ ps, ∀ p, matchAt pat st'.result p = none) := by
  intro ps
  induction ps with
  | nil =>
    intro st st' _ h
    injection h with he
    subst he
    exact ⟨fun tok2 _ _ hcl p => hcl p, fun pat hpat => absurd hpat (by simp)⟩
  | cons pat ps ih =>
    intro st st' hps h
    obtain ⟨tok, rfl, hne, hnl⟩ := hps pat (by simp)
    simp only [runPatterns] at h
    split at h
    next => cases h
    next st1 hl =>
      obtain ⟨post1, post2⟩ := runPatternLoop_single_post tok hne hnl fuel _ st1
        (by show (0 : Nat) ≤ st.result.length; omega)
        (by intro p hp; exact absurd (show p < 0 from hp) (by omega))
        hl
      obtain ⟨ihpres, ihpost⟩ := ih st1 st' (fun p hp => hps p (by simp [hp])) h
      constructor
      · intro tok2 hne2 hnl2 hcl p
        exact ihpres tok2 hne2 hnl2 (post2 tok2 hne2 hnl2 (fun p2 => hcl p2)) p
      · intro pat2 hpat2 p
        rcases List.mem_cons.mp hpat2 with heq | hmem
        · subst heq
          exact ihpres tok hne hnl post1 p
        · exact ihpost pat2 hmem p

/-- A pass over a pattern with no matches leaves the state unchanged. -/
theorem runPatternLoop_idle (pat : Pattern) (auto : Bool) (f2 : Nat) (st : ScanState)
    (hall : ∀ p, matchAt pat st.result p = none) :
    runPatternLoop pat auto (f2 + 1) st = some st :=
  runPatternLoop_succ_none pat auto f2 st (find_at_none_of_all pat st.result st.offset hall)

/-- A run in which no pattern matches leaves the content and counters
unchanged. -/
theorem runPatterns_idle (f2 : Nat) :
    ∀ ps st,
      (∀ pat ∈ ps, ∀ p, matchAt pat st.result p = none) →
      ∃ o2, runPatterns true (f2 + 1) ps st =
        some ⟨st.result, o2, st.found, st.removed, st.stdin⟩ := by
  intro ps
  induction ps with
  | nil => intro st _; exact ⟨st.offset, rfl⟩
  | cons pat ps ih =>
    intro st hall
    obtain ⟨o2, hrec⟩ := ih ⟨st.result, 0, st.found, st.removed, st.stdin⟩
      (fun pat2 hp p => hall pat2 (by simp [hp]) p)
    refine ⟨o2, ?_⟩
    simp only [runPatterns]
    rw [runPatternLoop_idle pat true f2 ⟨st.result, 0, st.found, st.removed, st.stdin⟩
      (fun p => hall pat (by simp) p)]
    exact hrec

/-! ## Detector lemmas -/

theorem detect_file_type_no_ext (path : String) (rules : SyntaxRules)
    (h : fileExtension path = none) :
    detect_file_type path rules = .error (.UnsupportedFileType "No file extension found") := by
  simp only [detect_file_type, h]

theorem detect_file_type_not_found (path : String) (rules : SyntaxRules) (ext : List Char)
    (hext : fileExtension path = some ext)
    (hnone : ∀ kv ∈ rules.languages, kv.2.extensions.any (fun x => x.data == ext) = false) :
    detect_file_type path rules = .error (.UnsupportedFileType ⟨ext⟩) := by
  simp only [detect_file_type, hext]
  rw [List.find?_eq_none.mpr (fun kv hkv => by rw [hnone kv hkv]; simp)]

theorem dot_mem_of_lastDotIdx : ∀ (cs : List Char) (i : Nat),
    lastDotIdx cs = some i → '.' ∈ cs := by
  intro cs
  induction cs with
  | nil => intro i h; cases h
  | cons c cs2 ih =>
    intro i h
    simp only [lastDotIdx] at h
    cases hld : lastDotIdx cs2 with
    | some j => exact List.mem_cons_of_mem c (ih j hld)
    | none =>
      rw [hld] at h
      split at h
      next i2 hc2 => cases hc2
      next =>
        split at h
        next hc => simp [hc]
        next => cases h

theorem lastDotIdx_of_no_tail_dot (cs : List Char) (h : '.' ∉ cs.tail) :
    lastDotIdx cs = none ∨ lastDotIdx cs = some 0 := by
  cases cs with
  | nil => left; rfl
  | cons c cs2 =>
    simp only [List.tail_cons] at h
    have hnone : lastDotIdx cs2 = none := by
      cases hld : lastDotIdx cs2 with
      | none => rfl
      | some i => exact absurd (dot_mem_of_lastDotIdx cs2 i hld) h
    simp only [lastDotIdx, hnone]
    by_cases hc : c = '.'
    · right; rw [if_pos hc]
    · left; rw [if_neg hc]

/-! ## Claims -/

/-- C1 counterexample. The claim asserts idempotence of automatic removal
for every pattern set compiled from a rule set.  It fails for the
multi-line rule `/* … */`: on the content `//*A*/*B*/` the first run
matches `/*A*/` at `[1, 6)`, deletes it, and resumes searching at offset
1 — but the deletion glued the leading `/` to `*B*/`, creating the new
comment `/*B*/` at offset 0, which `find_at(·, 1)` never sees.  The first
run therefore ends with content `/*B*/`, and a second automatic run finds
`comments_found = 1 ≠ 0`. -/
theorem C1_counterexample :
    remove_comments "//*A*/*B*/".data
        (get_comment_patterns ⟨"C", ["c"], [], [⟨"/*", "*/", "block"⟩]⟩) true [] 20 =
      some ("/*B*/".data, 1, 1) ∧
    remove_comments "/*B*/".data
        (get_comment_patterns ⟨"C", ["c"], [], [⟨"/*", "*/", "block"⟩]⟩) true [] 20 =
      some ([], 1, 1) := by
  constructor <;> decide

/-- C1 (amended).  For every pattern set compiled from a rule set whose
rules are all single-line with non-empty, newline-free tokens, a second
automatic run on the output of a first automatic run finds
`comments_found = 0` (and removes nothing). -/
theorem C1_amended_idempotent (language : LanguageRules)
    (hml : language.multi_line = [])
    (hgood : ∀ rule ∈ language.single_line,
      rule.pattern.data ≠ [] ∧ '\n' ∉ rule.pattern.data)
    (content : List Char) (stdin stdin2 : List (List Char)) (fuel fuel2 : Nat)
    (out : List Char) (f r : Nat)
    (h1 : remove_comments content (get_comment_patterns language) true stdin fuel =
      some (out, f, r))
    (h2 : 1 ≤ fuel2) :
    remove_comments out (get_comment_patterns language) true stdin2 fuel2 =
      some (out, 0, 0) := by
  have hps : ∀ pat ∈ get_comment_patterns language,
      ∃ tok, pat = Pattern.singleLine tok ∧ tok ≠ [] ∧ '\n' ∉ tok := by
    intro pat hpat
    simp only [get_comment_patterns, hml, List.map_nil, List.append_nil,
      List.mem_map] at hpat
    obtain ⟨rule, hrule, hpe⟩ := hpat
    exact ⟨rule.pattern.data, hpe.symm, (hgood rule hrule).1, (hgood rule hrule).2⟩
  unfold remove_comments at h1
  split at h1
  next => cases h1
  next st1 hr1 =>
    injection h1 with he
    have hout : st1.result = out := congrArg Prod.fst he
    obtain ⟨-, hpost⟩ := runPatterns_single_post fuel _ _ st1 hps hr1
    rw [hout] at hpost
    obtain ⟨f2, rfl⟩ : ∃ f2, fuel2 = f2 + 1 := ⟨fuel2 - 1, by omega⟩
    obtain ⟨o2, hrun2⟩ := runPatterns_idle f2 (get_comment_patterns language)
      ⟨out, 0, 0, 0, stdin2⟩ hpost
    unfold remove_comments
    rw [hrun2]

/-- C1 witness. One single-line rule `//` on `// a\nx\n`: the first run
returns `\nx\n` with `found = removed = 1`; by the amended theorem the
second run returns the same content with `found = 0`. -/
theorem C1_witness :
    remove_comments "\nx\n".data
        (get_comment_patterns ⟨"W", ["w"], [⟨"//", "line"⟩], []⟩) true [] 1 =
      some ("\nx\n".data, 0, 0) :=
  C1_amended_idempotent ⟨"W", ["w"], [⟨"//", "line"⟩], []⟩ rfl (by decide)
    "// a\nx\n".data [] [] 10 1 "\nx\n".data 1 1 (by decide) (by decide)

/-- C2 counterexample. The compiled single-line pattern is
`(?m)^\s*//\s*.*$`, and `\s` also matches line breaks: on the two-line
content `//\nx` the greedy `\s*` after the token consumes the newline, so
the single match reported by `find_at` is the span `[0, 4)` — the whole
content `//\nx`, which strictly contains the newline at index 2 followed
by the matched character `x` of the next line.  A single-line match can
therefore span more than one line, refuting the claim as stated. -/
theorem C2_counterexample :
    find_at (Pattern.singleLine "//".data) "//\nx".data 0 = some (0, 4) ∧
    "//\nx".data[2]? = some '\n' ∧ "//\nx".data.length = 4 := by
  refine ⟨by decide, by decide, by decide⟩

/-- C2 (amended).  Every match of a compiled single-line pattern starts at
the beginning of a line and ends at the end of the content or immediately
before a newline; it consists of whitespace (which may include line
breaks), the literal token, then whitespace and non-newline characters.
It is not always confined to a single line. -/
theorem C2_amended_match_shape (tok s : List Char) (p e : Nat) (hne : tok ≠ [])
    (h : matchSingleAt tok s p = some e) :
    (p = 0 ∨ s[p - 1]? = some '\n') ∧
    (e = s.length ∨ s[e]? = some '\n') ∧
    ∃ k, wsSeg s p (p + k) ∧ tok.isPrefixOf (s.drop (p + k)) = true ∧
      p + k + tok.length ≤ e ∧ e ≤ s.length := by
  obtain ⟨hls, -⟩ := (hasMatch_iff tok s p hne).mp (by rw [h]; rfl)
  obtain ⟨k, hk1, hk2, hk3, hk4, hk5⟩ := matchSingle_structure tok s p e h
  exact ⟨hls, hk5, k, wsSeg_of_le_wsRun s p k hk1, hk2, hk3, hk4⟩

/-- C2 witness. The match of `//` on `// x` at position 0 ends at 4, the
end of the content. -/
theorem C2_witness :
    matchSingleAt "//".data "// x".data 0 = some 4 ∧
    ((0 = 0 ∨ "// x".data[0 - 1]? = some '\n') ∧
     (4 = "// x".data.length ∨ "// x".data[4]? = some '\n') ∧
     ∃ k, wsSeg "// x".data 0 (0 + k) ∧
       "//".data.isPrefixOf ("// x".data.drop (0 + k)) = true ∧
       0 + k + "//".data.length ≤ 4 ∧ 4 ≤ "// x".data.length) :=
  ⟨by decide, C2_amended_match_shape "//".data "// x".data 0 4 (by decide) (by decide)⟩

/-- C3 counterexample. A span rejected during one pattern's pass can still
be deleted by a later pattern of the same run, so it is not byte-identical
in the final output.  With rules `//` (single-line) and `/* … */`
(multi-line) on `/*\n// x\n*/`, the user answers `n` for the single-line
match `// x` (offsets `[3, 7)`), but then accepts the multi-line match,
which covers the whole content including the rejected span: the output is
empty, with `found = 2`, `removed = 1`. -/
theorem C3_counterexample :
    remove_comments "/*\n// x\n*/".data
        (get_comment_patterns ⟨"C", ["c"], [⟨"//", "line"⟩], [⟨"/*", "*/", "block"⟩]⟩)
        false ["n".data, "y".data] 50 =
      some ([], 2, 1) ∧
    ¬ List.IsInfix "// x".data ([] : List Char) := by
  refine ⟨by decide, by decide⟩

/-- C3 (amended).  If the confirmation policy returns `false` for the
match `[s, e)` found at the current cursor, the first `e` characters of
the working copy — in particular the rejected span itself — are
byte-identical at the end of **that pattern's pass** (a later pattern may
still delete the span); and for every run the counters satisfy
`removed ≤ found`. -/
theorem C3_amended_reject_frame :
    (∀ (pat : Pattern) (auto : Bool) (fuel : Nat) (st st' : ScanState) (s e : Nat),
      st.offset ≤ st.result.length →
      find_at pat st.result st.offset = some (s, e) →
      (should_remove_comment ((st.result.drop s).take (e - s)) auto st.stdin).1 = false →
      runPatternLoop pat auto (fuel + 1) st = some st' →
      st'.result.take e = st.result.take e) ∧
    (∀ (content : List Char) (ps : List Pattern) (auto : Bool)
        (stdin : List (List Char)) (fuel : Nat) (out : List Char) (f r : Nat),
      remove_comments content ps auto stdin fuel = some (out, f, r) → r ≤ f) :=
  ⟨fun pat auto fuel st st' s e h1 h2 h3 h4 =>
      runPatternLoop_reject_frame pat auto fuel st st' s e h1 h2 h3 h4,
   fun content ps auto stdin fuel out f r h =>
      remove_comments_removed_le_found content ps auto stdin fuel out f r h⟩

/-- C3 witness. Rejecting the match `// a` (span `[0, 4)`) of the pattern
`//` on `// a\nx` leaves the first 4 characters unchanged at the end of
the pass, and a concrete run has `removed = 1 ≤ 1 = found`. -/
theorem C3_witness :
    (⟨"// a\nx".data, 4, 1, 0, []⟩ : ScanState).result.take 4 =
      (⟨"// a\nx".data, 0, 0, 0, ["n".data]⟩ : ScanState).result.take 4 ∧
    (1 : Nat) ≤ 1 :=
  ⟨C3_amended_reject_frame.1 (Pattern.singleLine "//".data) false 2
      ⟨"// a\nx".data, 0, 0, 0, ["n".data]⟩ ⟨"// a\nx".data, 4, 1, 0, []⟩ 0 4
      (by decide) (by decide) (by decide) (by decide),
   C3_amended_reject_frame.2 "// a".data [Pattern.singleLine "//".data] true [] 10
      [] 1 1 (by decide)⟩

/-- C4. Every character outside the deleted (matched-and-accepted) spans
is preserved verbatim and in its original relative order: each accepted
match deletes the contiguous span `[s, e)` from the working copy
(`replace_range`), so the output is a sublist — an order-preserving
selection — of the input content. -/
theorem C4_outside_spans_preserved (content : List Char) (ps : List Pattern)
    (auto : Bool) (stdin : List (List Char)) (fuel : Nat) (out : List Char) (f r : Nat)
    (h : remove_comments content ps auto stdin fuel = some (out, f, r)) :
    out.Sublist content :=
  remove_comments_sublist content ps auto stdin fuel out f r h

/-- C4 witness. Removing `// c` from `// c\nx` leaves `\nx`, a sublist of
the input. -/
theorem C4_witness : List.Sublist "\nx".data "// c\nx".data :=
  C4_outside_spans_preserved "// c\nx".data [Pattern.singleLine "//".data] true [] 10
    "\nx".data 1 1 (by decide)

/-- C5. If the path's extension is absent, or maps to no language's
extension list, the `Remove` branch of `main` fails with
`UnsupportedFileType` — detection happens before pattern compilation and
scanning, and no `fs::write` is performed (the write list is empty). -/
theorem C5_unsupported_extension (path content : String) (rules : SyntaxRules)
    (auto force : Bool) (stdin : List (List Char)) (fuel : Nat)
    (h : fileExtension path = none ∨
      ∃ ext, fileExtension path = some ext ∧
        ∀ kv ∈ rules.languages, kv.2.extensions.any (fun x => x.data == ext) = false) :
    (∃ msg, mainRemove path content rules auto force stdin fuel =
      some (.error (Error.UnsupportedFileType msg))) ∧
    writesOf (mainRemove path content rules auto force stdin fuel) = [] := by
  have hdet : ∃ msg, detect_file_type path rules =
      .error (.UnsupportedFileType msg) := by
    rcases h with h | ⟨ext, hext, hnone⟩
    · exact ⟨"No file extension found", detect_file_type_no_ext path rules h⟩
    · exact ⟨⟨ext⟩, detect_file_type_not_found path rules ext hext hnone⟩
  obtain ⟨msg, hmsg⟩ := hdet
  constructor
  · exact ⟨msg, by simp only [mainRemove, hmsg]⟩
  · simp only [writesOf, mainRemove, hmsg]

/-- C5 witness. The path `file.xyz` against a rule set that only declares
the extension `rs`. -/
theorem C5_witness :
    (∃ msg, mainRemove "file.xyz" "// z\n"
        ⟨[("rust", ⟨"Rust", ["rs"], [⟨"//", "line"⟩], [⟨"/*", "*/", "block"⟩]⟩)]⟩
        true false [] 10 = some (.error (Error.UnsupportedFileType msg))) ∧
    writesOf (mainRemove "file.xyz" "// z\n"
        ⟨[("rust", ⟨"Rust", ["rs"], [⟨"//", "line"⟩], [⟨"/*", "*/", "block"⟩]⟩)]⟩
        true false [] 10) = [] :=
  C5_unsupported_extension "file.xyz" "// z\n"
    ⟨[("rust", ⟨"Rust", ["rs"], [⟨"//", "line"⟩], [⟨"/*", "*/", "block"⟩]⟩)]⟩
    true false [] 10 (Or.inr ⟨"xyz".data, by decide, by decide⟩)

/-- C6. On `/* a */ code /* b */` with the multi-line rule `/* … */`, the
scan finds exactly two matches, `[0, 7)` (`/* a */`, closing at its
nearest `*/`) and — after the first deletion — `[6, 13)` (`/* b */` in
` code /* b */`); they are never merged into one span, and the automatic
run returns ` code ` with `found = removed = 2`. -/
theorem C6_nongreedy_two_matches :
    remove_comments "/* a */ code /* b */".data
        (get_comment_patterns ⟨"C", ["c"], [], [⟨"/*", "*/", "block"⟩]⟩) true [] 50 =
      some (" code ".data, 2, 2) ∧
    find_at (Pattern.multiLine "/*".data "*/".data) "/* a */ code /* b */".data 0 =
      some (0, 7) ∧
    find_at (Pattern.multiLine "/*".data "*/".data) " code /* b */".data 0 =
      some (6, 13) := by
  refine ⟨by decide, by decide, by decide⟩

/-- C7. The spec's worked example: `// hello\nint x = 1;\n// world\n`
with the single-line rule `//` in automatic mode gives `found = 2`,
`removed = 2`, and the output is the code line with a blank line where
each comment was (`\nint x = 1;\n\n` — the second possibility the spec
allows). -/
theorem C7_example_run :
    remove_comments "// hello\nint x = 1;\n// world\n".data
        (get_comment_patterns ⟨"C", ["c"], [⟨"//", "line"⟩], []⟩) true [] 50 =
      some ("\nint x = 1;\n\n".data, 2, 2) := by
  decide

/-- C8. With `auto` set the confirmation policy returns `true` without
consuming stdin; consequently `remove_comments` in automatic mode is
deterministic — its result does not depend on stdin at all — and every
found comment is removed (`removed = found`). -/
theorem C8_auto_deterministic :
    (∀ (c : List Char) (sd : List (List Char)),
      should_remove_comment c true sd = (true, sd)) ∧
    (∀ (content : List Char) (ps : List Pattern) (sd sd' : List (List Char)) (fuel : Nat),
      remove_comments content ps true sd fuel = remove_comments content ps true sd' fuel) ∧
    (∀ (content : List Char) (ps : List Pattern) (sd : List (List Char)) (fuel : Nat)
        (out : List Char) (f r : Nat),
      remove_comments content ps true sd fuel = some (out, f, r) → r = f) :=
  ⟨fun _ _ => rfl,
   fun content ps sd sd' fuel => remove_comments_auto_stdin content ps sd sd' fuel,
   fun content ps sd fuel out f r h =>
     remove_comments_auto_removed_eq_found content ps sd fuel out f r h⟩

/-- C8 witness. Concrete instances of the three parts. -/
theorem C8_witness :
    should_remove_comment "// a".data true ["n".data] = (true, ["n".data]) ∧
    remove_comments "// a".data [Pattern.singleLine "//".data] true ["n".data] 10 =
      remove_comments "// a".data [Pattern.singleLine "//".data] true [] 10 ∧
    (1 : Nat) = 1 :=
  ⟨C8_auto_deterministic.1 "// a".data ["n".data],
   C8_auto_deterministic.2.1 "// a".data [Pattern.singleLine "//".data] ["n".data] [] 10,
   C8_auto_deterministic.2.2 "// a".data [Pattern.singleLine "//".data] [] 10
     [] 1 1 (by decide)⟩

/-- C9. A path whose final segment contains no `.`, or whose only `.` is
its leading character (e.g. `.gitignore`), has no extension: detection
fails with `UnsupportedFileType("No file extension found")` regardless of
the rule set, instead of matching text after a dot. -/
theorem C9_no_extension (path : String) (rules : SyntaxRules)
    (h : ∀ fn, fileName path = some fn → '.' ∉ fn.tail) :
    detect_file_type path rules =
      .error (.UnsupportedFileType "No file extension found") := by
  have hext : fileExtension path = none := by
    cases hfn : fileName path with
    | none => simp only [fileExtension, hfn]
    | some fn =>
      rcases lastDotIdx_of_no_tail_dot fn (h fn hfn) with hld | hld
      · simp only [fileExtension, hfn, hld]
      · simp only [fileExtension, hfn, hld]
        rw [if_pos trivial]
  exact detect_file_type_no_ext path rules hext

/-- C9 witness. The path `.gitignore` with a rule set declaring `rs`. -/
theorem C9_witness :
    detect_file_type ".gitignore"
        ⟨[("rust", ⟨"Rust", ["rs"], [⟨"//", "line"⟩], [⟨"/*", "*/", "block"⟩]⟩)]⟩ =
      .error (.UnsupportedFileType "No file extension found") :=
  C9_no_extension ".gitignore" _ (by
    intro fn hfn
    rw [(by decide : fileName ".gitignore" = some ".gitignore".data)] at hfn
    injection hfn with he
    subst he
    decide)

/-- C10. When every pattern's literal tokens are non-empty, every match
has `start < end`, so each loop iteration either strictly shrinks the
working copy (acceptance) or strictly advances the cursor (rejection):
fuel `content.length + 1` suffices for every pattern's pass and the
remover terminates with a result. -/
theorem C10_termination (content : List Char) (ps : List Pattern) (auto : Bool)
    (stdin : List (List Char))
    (h : ∀ pat ∈ ps, patternNonempty pat) :
    (remove_comments content ps auto stdin (content.length + 1)).isSome = true := by
  unfold remove_comments
  cases hr : runPatterns auto (content.length + 1) ps ⟨content, 0, 0, 0, stdin⟩ with
  | none =>
    have hterm := runPatterns_terminates auto (content.length + 1) ps
      ⟨content, 0, 0, 0, stdin⟩ h
      (by show content.length + 1 ≤ content.length + 1; omega)
    rw [hr] at hterm
    cases hterm
  | some st => rfl

/-- C10 witness. The single-line pattern `//` with its non-empty token on
`// a`. -/
theorem C10_witness :
    (remove_comments "// a".data [Pattern.singleLine "//".data] true []
      ("// a".data.length + 1)).isSome = true :=
  C10_termination "// a".data [Pattern.singleLine "//".data] true [] (by
    intro pat hpat
    simp only [List.mem_singleton] at hpat
    subst hpat
    show "//".data ≠ []
    decide)

end CommentRemover
